import Mathlib

/-!
Verification of the Selection & Ignore-Filtering Engine of promptcode-vscode.

Shallow embedding conventions:
* An absolute filesystem path is a `List String` of components; `[]` is the
  filesystem root `/`, and `path.dirname` is `List.dropLast`.
* The on-disk tree is a `FileTree` (a named node that is either a file or a
  directory with an ordered list of children, as `readdir` would report them).
* The mutable `checkedItems : Map<string, boolean>` is a function
  `List String → Option Bool`.
* The `ignore` npm package's compiled matchers are abstract boolean
  functions on relative paths (`List String → Bool`).
-/

/-- Componentwise path-prefix test: `isUnder root p` is true iff `root` is a
prefix of `p` (so `p` equals `root` or lies below it).  This models the
`filePath.startsWith(workspaceRoot)` / `currentDir.startsWith(workspaceRoot)`
checks of the source on component lists. -/
def isUnder : List String → List String → Bool
  | [], _ => true
  | _ :: _, [] => false
  | r :: rs, x :: xs => r == x && isUnder rs xs

/-- The chain of directories visited when walking from `p` upward to the
filesystem root: `p`, `p.dropLast`, …, `[]`. -/
def chainOf (p : List String) : List (List String) :=
  p :: (if h : p = [] then [] else chainOf p.dropLast)
termination_by p.length
decreasing_by
  simp only [List.length_dropLast]
  have : 0 < p.length := List.length_pos.mpr h
  omega

/-- A node of the lazily traversed filesystem: a file or a directory with its
`readdir` entries in order. -/
inductive FileTree where
  | file (name : String)
  | dir (name : String) (children : List FileTree)

/-- The `name` of a dirent. -/
def FileTree.nodeName : FileTree → String
  | .file n => n
  | .dir n _ => n

/-- The `isDirectory()` flag of a dirent. -/
def FileTree.isDirB : FileTree → Bool
  | .file _ => false
  | .dir _ _ => true

/-- Look a child up by name in a `readdir` listing (first match wins). -/
def getChild : List FileTree → String → Option FileTree
  | [], _ => none
  | c :: rest, n => if c.nodeName = n then some c else getChild rest n

/-- Resolve a path relative to a node of the tree. -/
def getNode : FileTree → List String → Option FileTree
  | t, [] => some t
  | .file _, _ :: _ => none
  | .dir _ cs, n :: rest =>
    match getChild cs n with
    | some c => getNode c rest
    | none => none

/-- `fs.promises.readdir(p)`: the entries of the directory at `p`, or `none`
when the path is missing or is a file (the callers catch that error). -/
def readdirFS (fs : FileTree) (p : List String) : Option (List FileTree) :=
  match getNode fs p with
  | some (.dir _ cs) => some cs
  | _ => none

/-- State of `IgnoreHelper` (src/unnamed/part_004): the per-workspace
`.promptcode_ignore` matchers, the per-directory `.gitignore` matchers, the
workspace roots and the `respectGitignore` setting.  A compiled matcher is an
abstract boolean function on the relative path handed to `ignore().ignores`. -/
structure IgnoreState where
  workspaceRoots : List (List String)
  promptcodeIgnores : List String → Option (List String → Bool)
  gitignores : List String → Option (List String → Bool)
  respectGitignore : Bool

/-- `vscode.workspace.getWorkspaceFolder`: the workspace root containing the
path, if any. -/
def getWorkspaceFolder (st : IgnoreState) (p : List String) : Option (List String) :=
  st.workspaceRoots.find? (fun r => isUnder r p)

/-- The promptcode-ignore branch of `IgnoreHelper.shouldIgnore`: the matcher
for the workspace root, applied to the path relative to that root
(false when no matcher is loaded). -/
def promptHit (st : IgnoreState) (root p : List String) : Bool :=
  match st.promptcodeIgnores root with
  | some matcher => matcher (p.drop root.length)
  | none => false

/-- One directory's `.gitignore` verdict inside the upward walk of
`IgnoreHelper.shouldIgnore`: the matcher stored for `c` applied to
`path.relative(c, p)`, guarded by `relativeToGitignore !== ''`. -/
def gitHit (st : IgnoreState) (p c : List String) : Bool :=
  match st.gitignores c with
  | some matcher =>
    let rel := p.drop c.length
    !rel.isEmpty && matcher rel
  | none => false

/-- The `while` loop of `IgnoreHelper.shouldIgnore`: starting from
`currentDir`, while still under the workspace root, return `true` as soon as
some directory's `.gitignore` matches, otherwise move to the parent; stop at
the filesystem root (`parentDir === currentDir`). -/
def gitignoreWalk (st : IgnoreState) (root p : List String) (currentDir : List String) : Bool :=
  if isUnder root currentDir then
    if gitHit st p currentDir then true
    else if h : currentDir = [] then false
    else gitignoreWalk st root p currentDir.dropLast
  else false
termination_by currentDir.length
decreasing_by
  simp only [List.length_dropLast]
  have : 0 < currentDir.length := List.length_pos.mpr h
  omega

/-- `IgnoreHelper.shouldIgnore`.  The empty-string guard of the source is the
`p = []` test here; a path with no containing workspace folder, or equal to
its workspace root (empty relative path), is never ignored.  Otherwise the
per-root promptcode matcher is consulted first, then (when `respectGitignore`)
the upward `.gitignore` walk starting at the path's parent directory. -/
def shouldIgnore (st : IgnoreState) (p : List String) : Bool :=
  if p = [] then false
  else
    match getWorkspaceFolder st p with
    | none => false
    | some workspaceRoot =>
      if p.drop workspaceRoot.length = [] then false
      else if promptHit st workspaceRoot p then true
      else if st.respectGitignore then gitignoreWalk st workspaceRoot p p.dropLast
      else false

/-- Modelled from the spec: the claim's reading of the walk, in which the
nearest directory that has a rule file renders the single, final verdict and
rule files in higher directories are never consulted. -/
def gitignoreWalkNearest (st : IgnoreState) (root p : List String) (currentDir : List String) : Bool :=
  if isUnder root currentDir then
    match st.gitignores currentDir with
    | some _ => gitHit st p currentDir
    | none =>
      if h : currentDir = [] then false
      else gitignoreWalkNearest st root p currentDir.dropLast
  else false
termination_by currentDir.length
decreasing_by
  simp only [List.length_dropLast]
  have : 0 < currentDir.length := List.length_pos.mpr h
  omega

/-- Modelled from the spec: `shouldIgnore` as the claim describes it, with the
nearest-rule-file-wins walk in place of the source's merging walk. -/
def shouldIgnoreNearest (st : IgnoreState) (p : List String) : Bool :=
  if p = [] then false
  else
    match getWorkspaceFolder st p with
    | none => false
    | some workspaceRoot =>
      if p.drop workspaceRoot.length = [] then false
      else if promptHit st workspaceRoot p then true
      else if st.respectGitignore then gitignoreWalkNearest st workspaceRoot p p.dropLast
      else false

/-- A concrete `IgnoreHelper` state: one workspace root `/p`; an override file
that matches nothing; a `.gitignore` in `/p/a/b` that matches nothing and a
`.gitignore` in `/p` that matches `a/b/f.txt`. -/
def igSt0 : IgnoreState where
  workspaceRoots := [["p"]]
  promptcodeIgnores := fun r => if r = ["p"] then some (fun _ => false) else none
  gitignores := fun d =>
    if d = ["p", "a", "b"] then some (fun _ => false)
    else if d = ["p"] then some (fun rel => rel == ["a", "b", "f.txt"])
    else none
  respectGitignore := true

/-- The global `checkedItems : Map<string, boolean>` as a function from
absolute paths to the stored checkbox value (`none` = no entry). -/
def CheckedMap := List String → Option Bool

/-- `checkedItems.set(k, v)`. -/
def setChecked (m : CheckedMap) (k : List String) (v : Bool) : CheckedMap :=
  fun q => if q = k then some v else m q

/-- The state a `FileExplorerProvider` instance works against: its workspace
roots, the ignore predicate of its `IgnoreHelper`, and the on-disk tree
(rooted at the filesystem root `[]`). -/
structure SelStore where
  roots : List (List String)
  ign : List String → Bool
  fs : FileTree

/-- The loop body of `FileExplorerProvider.setAllChildrenState` over a
`readdir` listing `cs` of the directory `dp`: for each entry in order, skip
it if ignored, otherwise write the new state and recurse into
subdirectories. -/
def cascadeList (ign : List String → Bool) (b : Bool) :
    List FileTree → List String → CheckedMap → CheckedMap
  | [], _, m => m
  | c :: rest, dp, m =>
    let fp := dp ++ [c.nodeName]
    let m1 :=
      if ign fp then m
      else
        match c with
        | .file _ => setChecked m fp b
        | .dir _ cs => cascadeList ign b cs fp (setChecked m fp b)
    cascadeList ign b rest dp m1

/-- `FileExplorerProvider.setAllChildrenState(dirPath, isChecked)`: read the
directory and cascade; a `readdir` failure is caught and leaves the map
unchanged. -/
def setAllChildrenState (st : SelStore) (dp : List String) (b : Bool)
    (m : CheckedMap) : CheckedMap :=
  match readdirFS st.fs dp with
  | some cs => cascadeList st.ign b cs dp m
  | none => m

/-- `FileExplorerProvider.getChildrenStates(dirPath)`: the stored state
(`false` when absent) of every non-ignored entry of the directory, in
`readdir` order; a `readdir` failure is caught and yields `[]`. -/
def getChildrenStates (st : SelStore) (m : CheckedMap) (dp : List String) : List Bool :=
  match readdirFS st.fs dp with
  | some cs =>
    (cs.filter (fun c => !(st.ign (dp ++ [c.nodeName])))).map
      (fun c => (m (dp ++ [c.nodeName])).getD false)
  | none => []

/-- The state-derivation step of `FileExplorerProvider.updateParentChain` for
one directory: no visible children — leave the stored state unchanged; all
visible children unchecked — write `false`; some visible child checked —
write `true`. -/
def deriveOwnState (st : SelStore) (m : CheckedMap) (dp : List String) : CheckedMap :=
  let states := getChildrenStates st m dp
  if states = [] then m
  else if states.all (fun s => s == false) then setChecked m dp false
  else setChecked m dp true

/-- `FileExplorerProvider.updateParentChain(dirPath)`: derive the directory's
own state from its visible children, then recurse on the parent directory
until the filesystem root is reached (`path.dirname` is constant there). -/
def updateParentChain (st : SelStore) (m : CheckedMap) (dp : List String) : CheckedMap :=
  if st.roots = [] then m
  else if h : dp = [] then deriveOwnState st m dp
  else updateParentChain st (deriveOwnState st m dp) dp.dropLast
termination_by dp.length
decreasing_by
  simp only [List.length_dropLast]
  have : 0 < dp.length := List.length_pos.mpr h
  omega

/-- `FileExplorerProvider.processCheckboxChange(item, isChecked)`: write the
toggled item's own state, cascade when it is a directory, then re-derive the
ancestor chain starting at the item's parent directory. -/
def processCheckboxChange (st : SelStore) (itemPath : List String)
    (isDirectory : Bool) (b : Bool) (m : CheckedMap) : CheckedMap :=
  let m1 := setChecked m itemPath b
  let m2 := if isDirectory then setAllChildrenState st itemPath b m1 else m1
  updateParentChain st m2 itemPath.dropLast

/-- A store in which the directory `/p/d` and the file under it are ignored,
so `/p` has no visible children. -/
def selSt0 : SelStore where
  roots := [["p"]]
  ign := fun q => q == ["p", "d"] || q == ["p", "d", "x.txt"]
  fs := .dir "" [.dir "p" [.dir "d" [.file "x.txt"]]]

/-- A map in which `/p` is checked (e.g. from an earlier toggle, before a
rule reload made its whole subtree ignored). -/
def m0cex : CheckedMap := fun q => if q = ["p"] then some true else none

/-- A store with root `/p` containing a single visible file `/p/a.txt`,
which is checked. -/
def selSt1 : SelStore where
  roots := [["p"]]
  ign := fun _ => false
  fs := .dir "" [.dir "p" [.file "a.txt"]]

/-- The map in which only `/p/a.txt` is checked. -/
def m1wit : CheckedMap := fun q => if q = ["p", "a.txt"] then some true else none

/-- The set of paths the cascade writes, as a boolean predicate: `q` is
written by cascading over the listing `cs` of directory `dp` iff `q` is an
entry (or a deeper descendant) reached exclusively through non-ignored
entries — i.e. `q` exists under `dp`, is not ignored itself, and no
directory strictly between `dp` and `q` is ignored (ignored subtrees are
skipped entirely). -/
def writtenByCascade (ign : List String → Bool) : List FileTree → List String → List String → Bool
  | [], _, _ => false
  | c :: rest, dp, q =>
    (if ign (dp ++ [c.nodeName]) then false
     else
       decide (q = dp ++ [c.nodeName]) ||
         (match c with
          | .file _ => false
          | .dir _ cs => writtenByCascade ign cs (dp ++ [c.nodeName]) q))
    || writtenByCascade ign rest dp q

/-- Scenario A: root `/p` with `/p/a/x.txt` visible and `/p/a/y.bin`
ignored. -/
def selStA : SelStore where
  roots := [["p"]]
  ign := fun q => q == ["p", "a", "y.bin"]
  fs := .dir "" [.dir "p" [.dir "a" [.file "x.txt", .file "y.bin"]]]

/-- The empty selection map. -/
def mEmpty : CheckedMap := fun _ => none

/-- `FileExplorerProvider.isDirectoryEffectivelyEmpty(dirPath)` on the node
at absolute path `p`: a file (readdir error, caught) counts as non-empty;
a directory is effectively empty iff it has no entries, or all entries are
ignored, or it has no visible file entry and every visible subdirectory is
itself effectively empty. -/
def isDirectoryEffectivelyEmpty (ign : List String → Bool) (p : List String) :
    FileTree → Bool
  | .file _ => false
  | .dir _ cs =>
    if cs.isEmpty then true
    else if cs.all (fun c => ign (p ++ [c.nodeName])) then true
    else if cs.any (fun c => !(ign (p ++ [c.nodeName])) && !c.isDirB) then false
    else cs.attach.all (fun c =>
      ign (p ++ [c.1.nodeName]) ||
        isDirectoryEffectivelyEmpty ign (p ++ [c.1.nodeName]) c.1)
termination_by t => sizeOf t
decreasing_by
  have h1 := List.sizeOf_lt_of_mem c.2
  simp only [FileTree.dir.sizeOf_spec]
  omega

/-- The `includedPaths` set built by
`FileExplorerProvider.rebuildSearchPaths`, with the `:DIR_MATCH` sentinels
kept in a separate field. -/
structure Overlay where
  included : List (List String)
  dirMarks : List (List String)

/-- Models `searchTerm.trim() === ''`: a string trims to empty iff all its
characters are whitespace. -/
def strIsBlank (s : String) : Bool := s.toList.all Char.isWhitespace

/-- Componentwise character-prefix test used to model substring search. -/
def charsStartWith : List Char → List Char → Bool
  | [], _ => true
  | _ :: _, [] => false
  | a :: as, b :: bs => a == b && charsStartWith as bs

/-- Substring containment on character lists (`String.prototype.includes`). -/
def charsContain : List Char → List Char → Bool
  | s, pat =>
    match s with
    | [] => pat.isEmpty
    | _ :: rest => charsStartWith pat s || charsContain rest pat

/-- `name.toLowerCase().includes(query.toLowerCase())`. -/
def strContainsCI (s q : String) : Bool :=
  charsContain (s.toList.map Char.toLower) (q.toList.map Char.toLower)

/-- The recursive `findMatchesInDirectory` of
`FileExplorerProvider.rebuildSearchPaths`: walk the listing `cs` of `dp` in
order, skip ignored entries, record entries whose base name contains the
query (case-insensitively), and recurse into non-effectively-empty
subdirectories. -/
def findMatchesList (ign : List String → Bool) (q : String) :
    List FileTree → List String → List (List String)
  | [], _ => []
  | c :: rest, dp =>
    if ign (dp ++ [c.nodeName]) then findMatchesList ign q rest dp
    else
      (if strContainsCI c.nodeName q then [dp ++ [c.nodeName]] else []) ++
      (match c with
       | .file _ => []
       | .dir nm cs =>
         if isDirectoryEffectivelyEmpty ign (dp ++ [nm]) (.dir nm cs) then []
         else findMatchesList ign q cs (dp ++ [nm])) ++
      findMatchesList ign q rest dp

/-- Fuel-bounded evaluator for `isDirectoryEffectivelyEmpty`: recursion is on
the fuel, so the function is structurally recursive and the kernel can
evaluate it on concrete trees (`isDirEmptyFuel_eq` proves agreement). -/
def isDirEmptyFuel (ign : List String → Bool) : Nat → List String → FileTree → Bool
  | 0, _, _ => false
  | _ + 1, _, .file _ => false
  | n + 1, p, .dir _ cs =>
    if cs.isEmpty then true
    else if cs.all (fun c => ign (p ++ [c.nodeName])) then true
    else if cs.any (fun c => !(ign (p ++ [c.nodeName])) && !c.isDirB) then false
    else cs.all (fun c =>
      ign (p ++ [c.nodeName]) || isDirEmptyFuel ign n (p ++ [c.nodeName]) c)

/-- Fuel-bounded evaluator for `findMatchesList`, kernel-evaluable on
concrete listings (`findMatchesFuel_eq` proves agreement). -/
def findMatchesFuel (ign : List String → Bool) (q : String) :
    Nat → List FileTree → List String → List (List String)
  | 0, _, _ => []
  | _ + 1, [], _ => []
  | n + 1, c :: rest, dp =>
    if ign (dp ++ [c.nodeName]) then findMatchesFuel ign q n rest dp
    else
      (if strContainsCI c.nodeName q then [dp ++ [c.nodeName]] else []) ++
      (match c with
       | .file _ => []
       | .dir nm cs =>
         if isDirEmptyFuel ign n (dp ++ [nm]) (.dir nm cs) then []
         else findMatchesFuel ign q n cs (dp ++ [nm])) ++
      findMatchesFuel ign q n rest dp

/-- The strict ancestors of `p` up to and including the filesystem root
`[]`, as collected by the `while (currentPath !== path.dirname(currentPath))`
loop of `rebuildSearchPaths`. -/
def ancestorList (p : List String) : List (List String) :=
  if h : p = [] then [] else p.dropLast :: ancestorList p.dropLast
termination_by p.length
decreasing_by
  simp only [List.length_dropLast]
  have : 0 < p.length := List.length_pos.mpr h
  omega

/-- All direct matches found across the workspace roots (in root order); a
`readdir` failure on a root is caught and contributes nothing. -/
def searchMatches (ign : List String → Bool) (fs : FileTree)
    (roots : List (List String)) (q : String) : List (List String) :=
  roots.foldr (fun r acc =>
    (match readdirFS fs r with
     | some cs => findMatchesList ign q cs r
     | none => []) ++ acc) []

/-- `FileExplorerProvider.rebuildSearchPaths`: empty (trimmed) query clears
the inclusion set; otherwise every match is added together with all its
ancestors up to the filesystem root, and matches that stat as directories
are marked as `:DIR_MATCH` sentinels. -/
def rebuildSearchPaths (ign : List String → Bool) (fs : FileTree)
    (roots : List (List String)) (q : String) : Overlay :=
  if strIsBlank q then ⟨[], []⟩
  else
    { included := (searchMatches ign fs roots q).foldr
        (fun mp acc => mp :: (ancestorList mp ++ acc)) []
      dirMarks := (searchMatches ign fs roots q).filter (fun mp =>
        match getNode fs mp with
        | some (.dir _ _) => true
        | _ => false) }

/-- The ancestor loop of `FileExplorerProvider.shouldIncludeInSearch`:
starting from `cur`, check every ancestor down to (but excluding) the
filesystem root for a directory-match sentinel. -/
def hasDirMatchAncestor (ov : Overlay) (cur : List String) : Bool :=
  if h : cur = [] then false
  else if cur ∈ ov.dirMarks then true
  else hasDirMatchAncestor ov cur.dropLast
termination_by cur.length
decreasing_by
  simp only [List.length_dropLast]
  have : 0 < cur.length := List.length_pos.mpr h
  omega

/-- `FileExplorerProvider.shouldIncludeInSearch(fullPath)`: true when the
query is blank, when the path is directly in the inclusion set, or when
some strict ancestor carries a directory-match sentinel. -/
def shouldIncludeInSearch (q : String) (ov : Overlay) (p : List String) : Bool :=
  if strIsBlank q then true
  else if p ∈ ov.included then true
  else hasDirMatchAncestor ov p.dropLast

/-- `FileExplorerProvider.processDirectoryEntries(directoryPath, entries)`:
drop ignored entries; if any directory remains, drop the effectively empty
directories and regroup the survivors as directories-then-files; with an
active query keep only entries passing `shouldIncludeInSearch` (or nothing
when the directory itself is not included).  The result lists each shown
entry's name and `isDirectory` flag in render order. -/
def processDirectoryEntries (ign : List String → Bool) (q : String) (ov : Overlay)
    (dp : List String) (cs : List FileTree) : List (String × Bool) :=
  let filtered := cs.filter (fun c => !(ign (dp ++ [c.nodeName])))
  let filtered2 :=
    if filtered.any (fun c => c.isDirB) then
      (filtered.filter (fun c =>
        c.isDirB && !(isDirectoryEffectivelyEmpty ign (dp ++ [c.nodeName]) c))) ++
      filtered.filter (fun c => !c.isDirB)
    else filtered
  if !(strIsBlank q) then
    if shouldIncludeInSearch q ov dp then
      (filtered2.filter (fun c => shouldIncludeInSearch q ov (dp ++ [c.nodeName]))).map
        (fun c => (c.nodeName, c.isDirB))
    else []
  else filtered2.map (fun c => (c.nodeName, c.isDirB))

/-- The visible, non-effectively-empty directory entries of a listing, in
`readdir` order. -/
def visibleNonEmptyDirEntries (ign : List String → Bool) (dp : List String)
    (cs : List FileTree) : List FileTree :=
  (cs.filter (fun c => !(ign (dp ++ [c.nodeName])))).filter (fun c =>
    c.isDirB && !(isDirectoryEffectivelyEmpty ign (dp ++ [c.nodeName]) c))

/-- The visible file entries of a listing, in `readdir` order. -/
def visibleFileEntries (ign : List String → Bool) (dp : List String)
    (cs : List FileTree) : List FileTree :=
  (cs.filter (fun c => !(ign (dp ++ [c.nodeName])))).filter (fun c => !c.isDirB)

/-- The tree of Scenario A extended with a second, non-empty directory:
`/p` contains `e/` (only the ignored `y.bin`), `f/` (a visible `z.txt`),
and the file `x.txt`. -/
def csW : List FileTree :=
  [.dir "e" [.file "y.bin"], .dir "f" [.file "z.txt"], .file "x.txt"]

/-- Ignore exactly `/p/e/y.bin`. -/
def ignW : List String → Bool := fun q => q == ["p", "e", "y.bin"]

/-- The empty search overlay. -/
def ovEmpty : Overlay := ⟨[], []⟩

/-- Lexicographic order on character lists, used to state the sortedness the
claim asserts. -/
def charsLe : List Char → List Char → Bool
  | [], _ => true
  | _ :: _, [] => false
  | a :: as, b :: bs => if a = b then charsLe as bs else decide (a < b)

/-- An unsorted listing: directories `b`, `a` and files `d.txt`, `c.txt` in
that raw `readdir` order. -/
def csUnsorted : List FileTree :=
  [.dir "b" [.file "z"], .dir "a" [.file "z"], .file "d.txt", .file "c.txt"]

/-- Scenario C tree: `/p/a/x.txt` and `/p/b/y.txt`. -/
def fsC : FileTree :=
  .dir "" [.dir "p" [.dir "a" [.file "x.txt"], .dir "b" [.file "y.txt"]]]

/-- A `TokenCacheEntry` of tokenCounter.ts: token count, the backing file's
mtime and size at computation time, and the computation timestamp. -/
structure TokenCacheEntry where
  count : Nat
  mtime : Int
  size : Nat
  timestamp : Nat

/-- The fields of `fs.promises.stat` the cache consults. -/
structure FileStats where
  mtimeMs : Int
  size : Nat

/-- The in-memory `tokenCache : Map<string, TokenCacheEntry>`. -/
def TokenCache := String → Option TokenCacheEntry

/-- `isCacheValid(filePath, stats)`: an entry exists and both its recorded
mtime and size equal the live stat. -/
def isCacheValid (cache : TokenCache) (p : String) (stats : FileStats) : Bool :=
  match cache p with
  | none => false
  | some c => c.mtime == stats.mtimeMs && c.size == stats.size

/-- `countTokensInFile(filePath)`: score the file's full content; any read
error is caught and yields zero. -/
def countTokensInFile (readFile : String → Option String) (tokenCount : String → Nat)
    (p : String) : Nat :=
  match readFile p with
  | some content => tokenCount content
  | none => 0

/-- `countTokensWithCache(filePath)`: stat the file (a stat error falls back
to a direct count with no cache update); on a valid cache hit return the
cached count unchanged; otherwise recompute from the content and replace
the entry with a fresh one recording the live mtime and size. -/
def countTokensWithCache (stat : String → Option FileStats)
    (readFile : String → Option String) (tokenCount : String → Nat) (now : Nat)
    (cache : TokenCache) (p : String) : Nat × TokenCache :=
  match stat p with
  | none => (countTokensInFile readFile tokenCount p, cache)
  | some st =>
    if isCacheValid cache p st then
      (match cache p with
       | some c => c.count
       | none => 0, cache)
    else
      let count := countTokensInFile readFile tokenCount p
      (count,
        fun q => if q = p then some ⟨count, st.mtimeMs, st.size, now⟩ else cache q)

/-- The persisted `DiskCache` document: a format version, the producer
extension's version (absent or empty is falsy), and the entry map. -/
structure DiskCacheDoc where
  version : String
  extensionVersion : Option String
  entries : List (String × TokenCacheEntry)

/-- JS truthiness of the optional version strings (`undefined` and `''` are
falsy). -/
def strTruthy : Option String → Bool
  | none => false
  | some s => !(s == "")

/-- `loadCacheFromDisk()`: a missing document is ignored; an unsupported
format version loads nothing; with format version `"1.0"`, a missing or
mismatching producer version clears the in-memory cache and imports
nothing, and otherwise the cache is cleared and every entry whose file
still exists is imported. -/
def loadCacheFromDisk (currentVersion : Option String) (existsFile : String → Bool)
    (doc : Option DiskCacheDoc) (cache : TokenCache) : TokenCache :=
  match doc with
  | none => cache
  | some d =>
    if d.version = "1.0" then
      if !(strTruthy d.extensionVersion) || !(strTruthy currentVersion)
          || !(d.extensionVersion == currentVersion) then
        fun _ => none
      else
        d.entries.foldl (fun acc e =>
          if existsFile e.1 then
            (fun q => if q = e.1 then some e.2 else acc q)
          else acc) (fun _ => none)
    else cache

/-- Scenario D state: a cached entry for `/p/f.txt` computed at mtime 1,
size 5. -/
def cacheD : TokenCache := fun q => if q = "/p/f.txt" then some ⟨42, 1, 5, 0⟩ else none

/-- The Scenario E document: format version `"1.0"`, produced by extension
version `"1.0.0"`, with one entry. -/
def docE : DiskCacheDoc := ⟨"1.0", some "1.0.0", [("/p/a.txt", ⟨42, 1, 5, 0⟩)]⟩

theorem isUnder_refl (p : List String) : isUnder p p = true := by
  induction p with
  | nil => rfl
  | cons a t ih => simp [isUnder, ih]

theorem isUnder_trans {a b c : List String} (hab : isUnder a b = true)
    (hbc : isUnder b c = true) : isUnder a c = true := by
  induction a generalizing b c with
  | nil => rfl
  | cons r rs ih =>
    cases b with
    | nil => simp [isUnder] at hab
    | cons y ys =>
      cases c with
      | nil => simp [isUnder] at hbc
      | cons z zs =>
        simp [isUnder] at hab hbc ⊢
        exact ⟨hab.1.trans hbc.1, ih hab.2 hbc.2⟩

theorem isUnder_dropLast (p : List String) : isUnder p.dropLast p = true := by
  induction p with
  | nil => rfl
  | cons a t ih =>
    cases t with
    | nil => rfl
    | cons b t' => simpa [List.dropLast, isUnder] using ih

theorem chainOf_isUnder : ∀ (p c : List String), c ∈ chainOf p → isUnder c p = true := by
  intro p
  induction p using chainOf.induct with
  | _ p ih =>
    intro c hc
    rw [chainOf] at hc
    rcases List.mem_cons.mp hc with h | h
    · exact h ▸ isUnder_refl p
    · by_cases hp : p = []
      · simp [hp] at h
      · simp only [hp, dite_false] at h
        exact isUnder_trans (ih hp c h) (isUnder_dropLast p)

theorem chainOf_length_le : ∀ (p c : List String), c ∈ chainOf p → c.length ≤ p.length := by
  intro p
  induction p using chainOf.induct with
  | _ p ih =>
    intro c hc
    rw [chainOf] at hc
    rcases List.mem_cons.mp hc with h | h
    · exact h ▸ le_rfl
    · by_cases hp : p = []
      · simp [hp] at h
      · simp only [hp, dite_false] at h
        have := ih hp c h
        have hlen : p.dropLast.length = p.length - 1 := List.length_dropLast p
        omega

theorem gitignoreWalk_eq_any (st : IgnoreState) (root p : List String) :
    ∀ d, gitignoreWalk st root p d =
      (chainOf d).any (fun c => isUnder root c && gitHit st p c) := by
  intro d
  induction d using gitignoreWalk.induct st root p with
  | case1 d hu hhit =>
    rw [gitignoreWalk, chainOf]
    simp [hu, hhit]
  | case2 hu hhit =>
    rw [gitignoreWalk, chainOf]
    simp [hu, hhit]
  | case3 d hu hhit hnil ih =>
    rw [gitignoreWalk, chainOf]
    simp only [hu, hhit, hnil, if_true, if_false, ite_false, ite_true, dite_false, List.any_cons]
    rw [ih]
    simp [hhit]
  | case4 d hu =>
    rw [gitignoreWalk, if_neg hu]
    symm
    rw [List.any_eq_false]
    intro c hc
    have h1 : isUnder c d = true := chainOf_isUnder d c hc
    by_cases h2 : isUnder root c = true
    · exact absurd (isUnder_trans h2 h1) hu
    · simp at h2
      simp [h2]

/-- Claim C2 (amended): for a path `P` under root `R` (nonempty relative
path) that is not matched by the override-or-default pattern set,
`shouldIgnore P` is true iff `respectGitignore` is on and SOME directory on
the walk from `P`'s parent upward that is still under `R` has a rule file
matching `P`'s path relative to that directory — the verdicts of all the
rule files on the chain are merged by disjunction; a nearest rule file that
does not match P does NOT stop the walk. -/
theorem shouldIgnore_merges_rule_files (st : IgnoreState) (p root : List String)
    (hroot : getWorkspaceFolder st p = some root)
    (hp : p ≠ []) (hrel : p.drop root.length ≠ [])
    (hover : promptHit st root p = false) :
    shouldIgnore st p =
      (st.respectGitignore &&
        (chainOf p.dropLast).any (fun c => isUnder root c && gitHit st p c)) := by
  unfold shouldIgnore
  rw [hroot]
  simp only [hp, hrel, hover, if_false, ite_false, Bool.false_eq_true]
  cases hb : st.respectGitignore with
  | false => simp
  | true => simp [gitignoreWalk_eq_any]

/-- Claim C2 is false on the code: for `/p/a/b/f.txt`, the nearest directory
with a rule file (`/p/a/b`) has the verdict "not ignored", yet `shouldIgnore`
returns `true` because the walk continues upward and also consults the rule
file of `/p` — higher rule files ARE consulted, contrary to the claim's
nearest-directory-wins reading (modelled by `shouldIgnoreNearest`). -/
theorem shouldIgnore_nearest_cex :
    shouldIgnore igSt0 ["p", "a", "b", "f.txt"] = true ∧
    shouldIgnoreNearest igSt0 ["p", "a", "b", "f.txt"] = false := by
  constructor
  · simp [shouldIgnore, igSt0, getWorkspaceFolder, promptHit, gitHit,
      gitignoreWalk, isUnder, List.find?]
  · simp [shouldIgnoreNearest, igSt0, getWorkspaceFolder, promptHit, gitHit,
      gitignoreWalkNearest, isUnder, List.find?]

/-- Witness for `shouldIgnore_merges_rule_files` at the concrete state
`igSt0` and path `/p/a/b/f.txt`. -/
theorem shouldIgnore_merges_rule_files_witness :
    shouldIgnore igSt0 ["p", "a", "b", "f.txt"] =
      (igSt0.respectGitignore &&
        (chainOf (["p", "a", "b", "f.txt"] : List String).dropLast).any
          (fun c => isUnder ["p"] c && gitHit igSt0 ["p", "a", "b", "f.txt"] c)) :=
  shouldIgnore_merges_rule_files igSt0 ["p", "a", "b", "f.txt"] ["p"]
    (by simp [igSt0, getWorkspaceFolder, isUnder, List.find?])
    (by decide)
    (by decide)
    (by simp [igSt0, promptHit])

/-- Claim C10: `shouldIgnore` returns `false` for the empty path, for a path
outside every active workspace root, and for a path equal to its workspace
root (empty relative path), regardless of the loaded patterns. -/
theorem shouldIgnore_false_outside_roots (st : IgnoreState) (p : List String)
    (h : p = [] ∨ getWorkspaceFolder st p = none ∨
      ∃ r, getWorkspaceFolder st p = some r ∧ p.drop r.length = []) :
    shouldIgnore st p = false := by
  unfold shouldIgnore
  rcases h with h | h | ⟨r, hr, hrel⟩
  · simp [h]
  · rw [h]
    by_cases hp : p = [] <;> simp [hp]
  · rw [hr]
    by_cases hp : p = [] <;> simp [hp, hrel]

/-- Witness for `shouldIgnore_false_outside_roots`: the path `/q/z` lies
outside the only root `/p` of `igSt0`, and the root `/p` itself has an empty
relative path; neither is ignored. -/
theorem shouldIgnore_false_outside_roots_witness :
    shouldIgnore igSt0 ["q", "z"] = false ∧ shouldIgnore igSt0 ["p"] = false :=
  ⟨shouldIgnore_false_outside_roots igSt0 ["q", "z"]
      (Or.inr (Or.inl (by simp [igSt0, getWorkspaceFolder, isUnder, List.find?]))),
    shouldIgnore_false_outside_roots igSt0 ["p"]
      (Or.inr (Or.inr ⟨["p"], by simp [igSt0, getWorkspaceFolder, isUnder, List.find?], by decide⟩))⟩

theorem setChecked_self (m : CheckedMap) (k : List String) (v : Bool) :
    setChecked m k v k = some v := by
  simp [setChecked]

theorem setChecked_ne (m : CheckedMap) {k q : List String} (v : Bool) (h : q ≠ k) :
    setChecked m k v q = m q := by
  simp [setChecked, h]

theorem deriveOwnState_ne (st : SelStore) (m : CheckedMap) {dp q : List String}
    (h : q ≠ dp) : deriveOwnState st m dp q = m q := by
  unfold deriveOwnState
  split
  · rfl
  · split <;> exact setChecked_ne m _ h

theorem all_false_eq_not_any (l : List Bool) :
    (l.all (fun s => s == false)) = !(l.any (fun s => s)) := by
  induction l with
  | nil => rfl
  | cons a t ih =>
    cases a
    · simpa using ih
    · simp

theorem deriveOwnState_spec (st : SelStore) (m : CheckedMap) (dp : List String) :
    (getChildrenStates st m dp = [] → deriveOwnState st m dp dp = m dp) ∧
    (getChildrenStates st m dp ≠ [] →
      deriveOwnState st m dp dp = some ((getChildrenStates st m dp).any (fun s => s))) := by
  unfold deriveOwnState
  constructor
  · intro h
    simp [h]
  · intro h
    simp only [h, if_false, ite_false, all_false_eq_not_any]
    by_cases h2 : ((getChildrenStates st m dp).any (fun s => s)) = true
    · simp [h2, setChecked_self]
    · simp only [Bool.not_eq_true] at h2
      simp [h2, setChecked_self]

theorem getChildrenStates_congr (st : SelStore) {m1 m2 : CheckedMap} (dp : List String)
    (h : ∀ q : List String, q.length = dp.length + 1 → m1 q = m2 q) :
    getChildrenStates st m1 dp = getChildrenStates st m2 dp := by
  unfold getChildrenStates
  cases hr : readdirFS st.fs dp with
  | none => rfl
  | some cs =>
    simp only
    apply List.map_congr_left
    intro c hc
    rw [h (dp ++ [c.nodeName]) (by simp)]

theorem updateParentChain_frame (st : SelStore) (m : CheckedMap) (dp : List String) :
    ∀ (q : List String), dp.length < q.length → updateParentChain st m dp q = m q := by
  induction m, dp using updateParentChain.induct st with
  | case1 m dp hr =>
    intro q hq
    rw [updateParentChain, if_pos hr]
  | case2 m hr =>
    intro q hq
    rw [updateParentChain, if_neg hr, dif_pos rfl]
    exact deriveOwnState_ne st m (fun h => by subst h; simp at hq)
  | case3 m dp hr hdp ih =>
    intro q hq
    rw [updateParentChain, if_neg hr, dif_neg hdp]
    have hlt : dp.dropLast.length < q.length := by
      have := List.length_dropLast dp
      omega
    rw [ih q hlt]
    exact deriveOwnState_ne st m (fun h => by subst h; omega)

/-- Claim C1 (amended): after `updateParentChain` re-derives the chain of
directories from `dp` up to the filesystem root, every directory `D` on the
chain that has at least one visible (non-ignored) child holds `some true`
iff some visible child is checked and `some false` otherwise; a directory
with NO visible children keeps whatever state it had before (it is left
unchanged, not forced to unchecked). -/
theorem updateParentChain_invariant (st : SelStore) (hroots : st.roots ≠ []) :
    ∀ (m : CheckedMap) (dp : List String), ∀ D ∈ chainOf dp,
      (getChildrenStates st (updateParentChain st m dp) D ≠ [] →
        updateParentChain st m dp D =
          some ((getChildrenStates st (updateParentChain st m dp) D).any (fun s => s))) ∧
      (getChildrenStates st (updateParentChain st m dp) D = [] →
        updateParentChain st m dp D = m D) := by
  intro m dp
  induction m, dp using updateParentChain.induct st with
  | case1 m dp hr => exact absurd hr hroots
  | case2 m hr =>
    intro D hD
    rw [chainOf] at hD
    simp at hD
    subst hD
    have hupd : updateParentChain st m [] = deriveOwnState st m [] := by
      rw [updateParentChain, if_neg hr, dif_pos rfl]
    have hcongr : getChildrenStates st (updateParentChain st m []) []
        = getChildrenStates st m [] := by
      apply getChildrenStates_congr
      intro q hq
      rw [hupd]
      exact deriveOwnState_ne st m (fun h => by subst h; simp at hq)
    rw [hupd] at hcongr ⊢
    rw [hcongr]
    exact ⟨(deriveOwnState_spec st m []).2, (deriveOwnState_spec st m []).1⟩
  | case3 m dp hr hdp ih =>
    intro D hD
    have hupd : updateParentChain st m dp
        = updateParentChain st (deriveOwnState st m dp) dp.dropLast := by
      rw [updateParentChain, if_neg hr, dif_neg hdp]
    have hlD : dp.dropLast.length = dp.length - 1 := List.length_dropLast dp
    have hposdp : 0 < dp.length := List.length_pos.mpr hdp
    rw [chainOf] at hD
    rw [dif_neg hdp] at hD
    rcases List.mem_cons.mp hD with rfl | hE
    · have f1 : updateParentChain st m D D = deriveOwnState st m D D := by
        rw [hupd]
        exact updateParentChain_frame st _ _ D (by omega)
      have f2 : getChildrenStates st (updateParentChain st m D) D
          = getChildrenStates st (deriveOwnState st m D) D := by
        apply getChildrenStates_congr
        intro q hq
        rw [hupd]
        exact updateParentChain_frame st _ _ q (by omega)
      have f3 : getChildrenStates st (deriveOwnState st m D) D
          = getChildrenStates st m D := by
        apply getChildrenStates_congr
        intro q hq
        exact deriveOwnState_ne st m (fun h => by subst h; omega)
      rw [f1, f2, f3]
      exact ⟨(deriveOwnState_spec st m D).2, (deriveOwnState_spec st m D).1⟩
    · have hlen : D.length ≤ dp.dropLast.length := chainOf_length_le _ D hE
      have hneq : D ≠ dp := by
        intro h
        rw [h] at hlen
        omega
      rw [hupd]
      refine ⟨(ih D hE).1, fun h => ?_⟩
      rw [(ih D hE).2 h]
      exact deriveOwnState_ne st m hneq

/-- Claim C1 is false on the code in the no-visible-children case: the
re-derived directory `/p` has no visible children (its only entry `/p/d` is
ignored), so the claim requires it to be unchecked, but `updateParentChain`
leaves its previous `some true` in place. -/
theorem updateParentChain_no_visible_cex :
    getChildrenStates selSt0 (updateParentChain selSt0 m0cex ["p", "d"]) ["p"] = [] ∧
    updateParentChain selSt0 m0cex ["p", "d"] ["p"] = some true := by
  constructor
  · simp [updateParentChain, deriveOwnState, getChildrenStates, readdirFS, getNode,
      getChild, setChecked, selSt0, m0cex, FileTree.nodeName]
  · simp [updateParentChain, deriveOwnState, getChildrenStates, readdirFS, getNode,
      getChild, setChecked, selSt0, m0cex, FileTree.nodeName]

/-- Witness for `updateParentChain_invariant`: re-deriving from `/p` in
`selSt1` marks `/p` checked because its visible child `/p/a.txt` is. -/
theorem updateParentChain_invariant_witness :
    updateParentChain selSt1 m1wit ["p"] ["p"] = some true := by
  have hstates : getChildrenStates selSt1 (updateParentChain selSt1 m1wit ["p"]) ["p"]
      = [true] := by
    simp [updateParentChain, deriveOwnState, getChildrenStates, readdirFS, getNode,
      getChild, setChecked, selSt1, m1wit, FileTree.nodeName]
  have h := (updateParentChain_invariant selSt1 (by simp [selSt1]) m1wit ["p"] ["p"]
    (by rw [chainOf]; simp)).1 (by rw [hstates]; simp)
  rw [h, hstates]
  rfl

theorem FileTree.one_le_sizeOf (t : FileTree) : 1 ≤ sizeOf t := by
  cases t <;> simp <;> omega

theorem cascadeList_apply_aux (ign : List String → Bool) (b : Bool) :
    ∀ (n : Nat) (cs : List FileTree), sizeOf cs ≤ n →
      ∀ (dp q : List String) (m : CheckedMap),
        cascadeList ign b cs dp m q =
          (if writtenByCascade ign cs dp q then some b else m q) := by
  intro n
  induction n with
  | zero =>
    intro cs hcs
    cases cs with
    | nil => intro dp q m; simp [cascadeList, writtenByCascade]
    | cons c rest => simp at hcs
  | succ k ih =>
    intro cs hcs dp q m
    cases cs with
    | nil => simp [cascadeList, writtenByCascade]
    | cons c rest =>
      have hszc : 1 ≤ sizeOf c := FileTree.one_le_sizeOf c
      have hszrest : sizeOf rest ≤ k := by
        simp at hcs; omega
      rw [cascadeList.eq_def, writtenByCascade.eq_def]
      dsimp only
      rw [ih rest hszrest dp q _]
      by_cases hW : writtenByCascade ign rest dp q = true
      · simp [hW]
      · simp only [Bool.not_eq_true] at hW
        simp only [hW, Bool.or_false, if_false, ite_false]
        by_cases hign : ign (dp ++ [c.nodeName]) = true
        · simp [hign]
        · simp only [Bool.not_eq_true] at hign
          simp only [hign, if_false, Bool.false_eq_true, ite_false]
          cases c with
          | file nm =>
            dsimp only [FileTree.nodeName]
            by_cases hq : q = dp ++ [nm]
            · simp [hq, setChecked_self]
            · simp [hq, setChecked_ne _ _ hq]
          | dir nm cs' =>
            have hszcs' : sizeOf cs' ≤ k := by
              simp at hcs
              have : sizeOf (FileTree.dir nm cs') = 1 + sizeOf nm + sizeOf cs' := by simp
              omega
            dsimp only [FileTree.nodeName]
            rw [ih cs' hszcs' (dp ++ [nm]) q _]
            by_cases hW2 : writtenByCascade ign cs' (dp ++ [nm]) q = true
            · simp [hW2]
            · simp only [Bool.not_eq_true] at hW2
              simp only [hW2, Bool.or_false, if_false, Bool.false_eq_true, ite_false]
              by_cases hq : q = dp ++ [nm]
              · simp [hq, setChecked_self]
              · simp [hq, setChecked_ne _ _ hq]

theorem writtenByCascade_not_ignored (ign : List String → Bool) :
    ∀ (n : Nat) (cs : List FileTree), sizeOf cs ≤ n →
      ∀ (dp q : List String),
        writtenByCascade ign cs dp q = true → ign q = false := by
  intro n
  induction n with
  | zero =>
    intro cs hcs
    cases cs with
    | nil => intro dp q h; simp [writtenByCascade] at h
    | cons c rest => simp at hcs
  | succ k ih =>
    intro cs hcs dp q h
    cases cs with
    | nil => simp [writtenByCascade] at h
    | cons c rest =>
      have hszc : 1 ≤ sizeOf c := FileTree.one_le_sizeOf c
      have hszrest : sizeOf rest ≤ k := by
        simp at hcs; omega
      rw [writtenByCascade.eq_def] at h
      dsimp only at h
      rcases Bool.or_eq_true_iff.mp h with h1 | h1
      · by_cases hign : ign (dp ++ [c.nodeName]) = true
        · rw [if_pos hign] at h1
          exact absurd h1 (by simp)
        · simp only [Bool.not_eq_true] at hign
          rw [if_neg (by simp [hign])] at h1
          rcases Bool.or_eq_true_iff.mp h1 with h2 | h2
          · have hq : q = dp ++ [c.nodeName] := of_decide_eq_true h2
            rw [hq]
            exact hign
          · cases c with
            | file nm => simp at h2
            | dir nm cs' =>
              have hszcs' : sizeOf cs' ≤ k := by
                simp at hcs
                have : sizeOf (FileTree.dir nm cs') = 1 + sizeOf nm + sizeOf cs' := by simp
                omega
              exact ih cs' hszcs' _ q h2
      · exact ih rest hszrest dp q h1

/-- Claim C3: cascading `b` over directory `dp` (with listing `cs`) writes
`b` exactly at the non-ignored descendants reached exclusively through
non-ignored entries; every other path — in particular every ignored path
and every path inside an ignored subtree — keeps its previous state
(ignored entries never enter the map). -/
theorem setAllChildrenState_spec (st : SelStore) (dp : List String) (b : Bool)
    (m : CheckedMap) (cs : List FileTree) (h : readdirFS st.fs dp = some cs) :
    (∀ q, setAllChildrenState st dp b m q
        = (if writtenByCascade st.ign cs dp q then some b else m q)) ∧
    (∀ q, st.ign q = true → setAllChildrenState st dp b m q = m q) := by
  have hmain : ∀ q, setAllChildrenState st dp b m q
      = (if writtenByCascade st.ign cs dp q then some b else m q) := by
    intro q
    unfold setAllChildrenState
    rw [h]
    exact cascadeList_apply_aux st.ign b (sizeOf cs) cs le_rfl dp q m
  refine ⟨hmain, fun q hq => ?_⟩
  rw [hmain q]
  have hfalse : writtenByCascade st.ign cs dp q = false := by
    by_cases hw : writtenByCascade st.ign cs dp q = true
    · exact absurd (writtenByCascade_not_ignored st.ign (sizeOf cs) cs le_rfl dp q hw)
        (by simp [hq])
    · simpa using hw
  simp [hfalse]

/-- Witness for `setAllChildrenState_spec` on Scenario A: checking `/p/a`
checks `x.txt` only; the ignored sibling `y.bin` never enters the map. -/
theorem setAllChildrenState_spec_witness :
    setAllChildrenState selStA ["p", "a"] true mEmpty ["p", "a", "x.txt"] = some true ∧
    setAllChildrenState selStA ["p", "a"] true mEmpty ["p", "a", "y.bin"] = none := by
  have hspec := setAllChildrenState_spec selStA ["p", "a"] true mEmpty
    [.file "x.txt", .file "y.bin"] (by rfl)
  constructor
  · rw [hspec.1 ["p", "a", "x.txt"]]
    simp [writtenByCascade, selStA, FileTree.nodeName]
  · rw [hspec.2 ["p", "a", "y.bin"] (by rfl)]
    rfl

/-- Claim C9 (amended): toggling a path that no longer exists on disk is NOT
a no-op on that path's entry — `processCheckboxChange` unconditionally
writes the new state for the path itself (there is no existence check), the
cascade is a no-op because `readdir` fails, and the ancestor chain is still
re-derived from the path's parent upward. -/
theorem processCheckboxChange_missing (st : SelStore) (p : List String)
    (isDirectory : Bool) (b : Bool) (m : CheckedMap)
    (h : getNode st.fs p = none) :
    processCheckboxChange st p isDirectory b m
      = updateParentChain st (setChecked m p b) p.dropLast ∧
    processCheckboxChange st p isDirectory b m p = some b := by
  have hp : p ≠ [] := by
    intro hp
    rw [hp] at h
    simp [getNode] at h
  have hread : readdirFS st.fs p = none := by
    unfold readdirFS
    rw [h]
  have hcascade : ∀ m' : CheckedMap, setAllChildrenState st p b m' = m' := by
    intro m'
    unfold setAllChildrenState
    rw [hread]
  have h1 : processCheckboxChange st p isDirectory b m
      = updateParentChain st (setChecked m p b) p.dropLast := by
    unfold processCheckboxChange
    cases isDirectory
    · rfl
    · simp [hcascade]
  refine ⟨h1, ?_⟩
  rw [h1]
  rw [updateParentChain_frame st _ _ p (by
    have h2 := List.length_dropLast p
    have h3 : 0 < p.length := List.length_pos.mpr hp
    omega)]
  exact setChecked_self m p b

/-- Claim C9 is false on the code: toggling the nonexistent path
`/p/gone.txt` (the tree `selSt1` only contains `/p/a.txt`) writes
`some true` for the stale path instead of dropping it. -/
theorem processCheckboxChange_missing_cex :
    processCheckboxChange selSt1 ["p", "gone.txt"] false true mEmpty ["p", "gone.txt"]
      = some true := by
  simp [processCheckboxChange, setAllChildrenState, readdirFS, getNode, getChild,
    updateParentChain, deriveOwnState, getChildrenStates, setChecked, selSt1, mEmpty,
    FileTree.nodeName]

/-- Witness for `processCheckboxChange_missing` at the concrete store
`selSt1` and the missing path `/p/gone.txt`. -/
theorem processCheckboxChange_missing_witness :
    processCheckboxChange selSt1 ["p", "gone.txt"] false true mEmpty
      = updateParentChain selSt1 (setChecked mEmpty ["p", "gone.txt"] true)
        (["p", "gone.txt"] : List String).dropLast ∧
    processCheckboxChange selSt1 ["p", "gone.txt"] false true mEmpty ["p", "gone.txt"]
      = some true :=
  processCheckboxChange_missing selSt1 ["p", "gone.txt"] false true mEmpty (by rfl)

theorem isDirEmpty_dir_iff (ign : List String → Bool) (p : List String)
    (nm : String) (cs : List FileTree) :
    isDirectoryEffectivelyEmpty ign p (.dir nm cs) = true ↔
      (cs = [] ∨ (∀ c ∈ cs, ign (p ++ [c.nodeName]) = true) ∨
       ((∀ c ∈ cs, ign (p ++ [c.nodeName]) = false → c.isDirB = true) ∧
        (∀ c ∈ cs, ign (p ++ [c.nodeName]) = false →
          isDirectoryEffectivelyEmpty ign (p ++ [c.nodeName]) c = true))) := by
  rw [isDirectoryEffectivelyEmpty.eq_def]
  dsimp only
  by_cases h1 : cs.isEmpty
  · rw [if_pos h1]
    simp only [List.isEmpty_iff] at h1
    simp [h1]
  · rw [if_neg h1]
    have h1' : cs ≠ [] := by
      intro h
      rw [h] at h1
      simp at h1
    by_cases h2 : cs.all (fun c => ign (p ++ [c.nodeName])) = true
    · rw [if_pos h2]
      simp only [List.all_eq_true] at h2
      constructor
      · intro _
        exact Or.inr (Or.inl h2)
      · intro _
        rfl
    · rw [if_neg h2]
      have h2' : ∃ c ∈ cs, ign (p ++ [c.nodeName]) = false := by
        by_contra hno
        push_neg at hno
        apply h2
        simp only [List.all_eq_true]
        intro c hc
        have := hno c hc
        simpa using this
      by_cases h3 : cs.any (fun c => !(ign (p ++ [c.nodeName])) && !c.isDirB) = true
      · rw [if_pos h3]
        simp only [List.any_eq_true, Bool.and_eq_true, Bool.not_eq_true'] at h3
        obtain ⟨c0, hc0, hic0, hfc0⟩ := h3
        constructor
        · intro hh
          exact absurd hh (by simp)
        · intro hh
          rcases hh with hnil | hall | ⟨hnofile, _⟩
          · exact absurd hnil h1'
          · exact absurd (hall c0 hc0) (by simp [hic0])
          · exact absurd (hnofile c0 hc0 hic0) (by simp [hfc0])
      · rw [if_neg h3]
        have h3' : ∀ c ∈ cs, ign (p ++ [c.nodeName]) = false → c.isDirB = true := by
          intro c hc hig
          by_contra hnd
          apply h3
          simp only [List.any_eq_true, Bool.and_eq_true, Bool.not_eq_true']
          refine ⟨c, hc, hig, ?_⟩
          simpa using hnd
        constructor
        · intro hall
          refine Or.inr (Or.inr ⟨h3', ?_⟩)
          intro c hc hig
          simp only [List.all_eq_true] at hall
          have := hall ⟨c, hc⟩ (List.mem_attach cs ⟨c, hc⟩)
          simpa [hig] using this
        · intro hh
          rcases hh with hnil | hall | ⟨_, hrec⟩
          · exact absurd hnil h1'
          · obtain ⟨c0, hc0, hnc0⟩ := h2'
            exact absurd (hall c0 hc0) (by simp [hnc0])
          · simp only [List.all_eq_true]
            intro cx _
            rcases cx with ⟨c, hc⟩
            by_cases hig : ign (p ++ [c.nodeName]) = true
            · simp [hig]
            · simp only [Bool.not_eq_true] at hig
              simp [hig, hrec c hc hig]

theorem processDirectoryEntries_groups (ign : List String → Bool) (q : String)
    (ov : Overlay) (dp : List String) (cs : List FileTree) (hq : strIsBlank q = true) :
    processDirectoryEntries ign q ov dp cs =
      ((visibleNonEmptyDirEntries ign dp cs).map (fun c => (c.nodeName, c.isDirB))) ++
      ((visibleFileEntries ign dp cs).map (fun c => (c.nodeName, c.isDirB))) := by
  unfold processDirectoryEntries visibleNonEmptyDirEntries visibleFileEntries
  rw [hq]
  simp only [Bool.not_true, Bool.false_eq_true, if_false, ite_false]
  by_cases h : (cs.filter (fun c => !(ign (dp ++ [c.nodeName])))).any (fun c => c.isDirB) = true
  · rw [if_pos h, List.map_append]
  · rw [if_neg h]
    simp only [Bool.not_eq_true] at h
    rw [List.any_eq_false] at h
    have hfirst : (cs.filter (fun c => !(ign (dp ++ [c.nodeName])))).filter (fun c =>
        c.isDirB && !(isDirectoryEffectivelyEmpty ign (dp ++ [c.nodeName]) c)) = [] := by
      rw [List.filter_eq_nil_iff]
      intro c hc
      simp [h c hc]
    have hsecond : (cs.filter (fun c => !(ign (dp ++ [c.nodeName])))).filter
        (fun c => !c.isDirB) = cs.filter (fun c => !(ign (dp ++ [c.nodeName]))) := by
      rw [List.filter_eq_self]
      intro c hc
      simp [h c hc]
    rw [hfirst, hsecond]
    simp

/-- Claim C4: effective emptiness of a directory holds iff it has zero
entries, or all entries are ignored, or it has no visible file entry and
every visible subdirectory is itself effectively empty; consequently, with
no active query, every directory that appears in a listing is visible and
effectively non-empty — a directory whose contents are all ignored is
excluded from its parent's listing. -/
theorem effectivelyEmpty_spec (ign : List String → Bool) :
    (∀ (p : List String) (nm : String) (cs : List FileTree),
      isDirectoryEffectivelyEmpty ign p (.dir nm cs) = true ↔
        (cs = [] ∨ (∀ c ∈ cs, ign (p ++ [c.nodeName]) = true) ∨
         ((∀ c ∈ cs, ign (p ++ [c.nodeName]) = false → c.isDirB = true) ∧
          (∀ c ∈ cs, ign (p ++ [c.nodeName]) = false →
            isDirectoryEffectivelyEmpty ign (p ++ [c.nodeName]) c = true)))) ∧
    (∀ (q : String) (ov : Overlay) (dp : List String) (cs : List FileTree) (nmx : String),
      strIsBlank q = true → (nmx, true) ∈ processDirectoryEntries ign q ov dp cs →
      ∃ c ∈ cs, c.nodeName = nmx ∧ c.isDirB = true ∧
        ign (dp ++ [c.nodeName]) = false ∧
        isDirectoryEffectivelyEmpty ign (dp ++ [c.nodeName]) c = false) := by
  refine ⟨fun p nm cs => isDirEmpty_dir_iff ign p nm cs, ?_⟩
  intro q ov dp cs nmx hq hmem
  rw [processDirectoryEntries_groups ign q ov dp cs hq] at hmem
  rcases List.mem_append.mp hmem with hA | hB
  · obtain ⟨c, hc, hcx⟩ := List.mem_map.mp hA
    unfold visibleNonEmptyDirEntries at hc
    rw [List.mem_filter] at hc
    obtain ⟨hc1, hc2⟩ := hc
    rw [List.mem_filter] at hc1
    obtain ⟨hcmem, hcig⟩ := hc1
    simp only [Bool.and_eq_true, Bool.not_eq_true'] at hc2
    refine ⟨c, hcmem, ?_, hc2.1, ?_, hc2.2⟩
    · exact congrArg Prod.fst hcx
    · simpa using hcig
  · obtain ⟨c, hc, hcx⟩ := List.mem_map.mp hB
    unfold visibleFileEntries at hc
    rw [List.mem_filter] at hc
    obtain ⟨_, hc2⟩ := hc
    have : c.isDirB = true := by
      have := congrArg Prod.snd hcx
      simpa using this
    simp [this] at hc2

/-- Witness for `effectivelyEmpty_spec`: `/p/e` (containing only the ignored
`y.bin`) is effectively empty even though readdir reports one entry, and the
directory `f` listed for `/p` is visible and effectively non-empty. -/
theorem effectivelyEmpty_spec_witness :
    (isDirectoryEffectivelyEmpty ignW ["p", "e"] (.dir "e" [.file "y.bin"]) = true) ∧
    (∃ c ∈ csW, c.nodeName = "f" ∧ c.isDirB = true ∧
      ignW (["p"] ++ [c.nodeName]) = false ∧
      isDirectoryEffectivelyEmpty ignW (["p"] ++ [c.nodeName]) c = false) := by
  constructor
  · exact ((effectivelyEmpty_spec ignW).1 ["p", "e"] "e" [.file "y.bin"]).mpr
      (Or.inr (Or.inl (by simp [ignW, FileTree.nodeName])))
  · refine (effectivelyEmpty_spec ignW).2 "" ovEmpty ["p"] csW "f" (by decide) ?_
    simp [processDirectoryEntries, isDirectoryEffectivelyEmpty, strIsBlank, csW, ignW,
      ovEmpty, FileTree.nodeName, FileTree.isDirB]

/-- Claim C8 (amended): with no active query, the produced child list is the
visible non-empty directories followed by the visible files, each group in
`readdir` order (the order-preserving filter of the raw entries) — the code
never sorts the groups lexicographically. -/
theorem processDirectoryEntries_order (ign : List String → Bool) (q : String)
    (ov : Overlay) (dp : List String) (cs : List FileTree) (hq : strIsBlank q = true) :
    processDirectoryEntries ign q ov dp cs =
      ((visibleNonEmptyDirEntries ign dp cs).map (fun c => (c.nodeName, c.isDirB))) ++
      ((visibleFileEntries ign dp cs).map (fun c => (c.nodeName, c.isDirB))) ∧
    (∀ x ∈ (visibleNonEmptyDirEntries ign dp cs).map
        (fun c => (c.nodeName, c.isDirB)), x.2 = true) ∧
    (∀ x ∈ (visibleFileEntries ign dp cs).map
        (fun c => (c.nodeName, c.isDirB)), x.2 = false) := by
  refine ⟨processDirectoryEntries_groups ign q ov dp cs hq, ?_, ?_⟩
  · intro x hx
    obtain ⟨c, hc, hcx⟩ := List.mem_map.mp hx
    unfold visibleNonEmptyDirEntries at hc
    rw [List.mem_filter] at hc
    have hdir : c.isDirB = true := by
      have := hc.2
      simp only [Bool.and_eq_true] at this
      exact this.1
    rw [← hcx]
    exact hdir
  · intro x hx
    obtain ⟨c, hc, hcx⟩ := List.mem_map.mp hx
    unfold visibleFileEntries at hc
    rw [List.mem_filter] at hc
    have hfile : c.isDirB = false := by
      have := hc.2
      simpa using this
    rw [← hcx]
    exact hfile

/-- Claim C8 is false on the code: the produced listing keeps the raw
`readdir` order inside each group — here the directory group comes out as
`b, a` and the file group as `d.txt, c.txt`, neither sorted
lexicographically by name (`a < b` and `c.txt < d.txt`). -/
theorem processDirectoryEntries_unsorted_cex :
    processDirectoryEntries (fun _ => false) "" ovEmpty ["p"] csUnsorted =
      [("b", true), ("a", true), ("d.txt", false), ("c.txt", false)] ∧
    ¬ List.Pairwise (fun x y => charsLe (Prod.fst x).toList (Prod.fst y).toList = true)
      [(("b" : String), (true : Bool)), ("a", true)] ∧
    ¬ List.Pairwise (fun x y => charsLe (Prod.fst x).toList (Prod.fst y).toList = true)
      [(("d.txt" : String), (false : Bool)), ("c.txt", false)] := by
  refine ⟨?_, by decide, by decide⟩
  simp [processDirectoryEntries, isDirectoryEffectivelyEmpty, strIsBlank, csUnsorted,
    ovEmpty, FileTree.nodeName, FileTree.isDirB]

/-- Witness for `processDirectoryEntries_order` at the concrete listing
`csW` of `/p` with a blank query. -/
theorem processDirectoryEntries_order_witness :
    processDirectoryEntries ignW "" ovEmpty ["p"] csW =
      ((visibleNonEmptyDirEntries ignW ["p"] csW).map (fun c => (c.nodeName, c.isDirB))) ++
      ((visibleFileEntries ignW ["p"] csW).map (fun c => (c.nodeName, c.isDirB))) ∧
    (∀ x ∈ (visibleNonEmptyDirEntries ignW ["p"] csW).map
        (fun c => (c.nodeName, c.isDirB)), x.2 = true) ∧
    (∀ x ∈ (visibleFileEntries ignW ["p"] csW).map
        (fun c => (c.nodeName, c.isDirB)), x.2 = false) :=
  processDirectoryEntries_order ignW "" ovEmpty ["p"] csW (by decide)

theorem hasDirMatchAncestor_iff (ov : Overlay) :
    ∀ cur, hasDirMatchAncestor ov cur = true ↔
      ∃ c ∈ chainOf cur, c ≠ [] ∧ c ∈ ov.dirMarks := by
  intro cur
  induction cur using hasDirMatchAncestor.induct ov with
  | case1 =>
    rw [hasDirMatchAncestor, chainOf]
    simp
  | case2 cur hnil hmem =>
    rw [hasDirMatchAncestor, dif_neg hnil, if_pos hmem, chainOf]
    simp only [true_iff]
    exact ⟨cur, List.mem_cons_self _ _, hnil, hmem⟩
  | case3 cur hnil hmem ih =>
    rw [hasDirMatchAncestor, dif_neg hnil, if_neg hmem, chainOf, dif_neg hnil]
    rw [ih]
    constructor
    · rintro ⟨c, hc, hcnil, hcm⟩
      exact ⟨c, List.mem_cons_of_mem _ hc, hcnil, hcm⟩
    · rintro ⟨c, hc, hcnil, hcm⟩
      rcases List.mem_cons.mp hc with rfl | hc'
      · exact absurd hcm hmem
      · exact ⟨c, hc', hcnil, hcm⟩

theorem mem_included_foldr (x : List String) : ∀ ms : List (List String),
    (x ∈ ms.foldr (fun mp acc => mp :: (ancestorList mp ++ acc)) [] ↔
      ∃ mp ∈ ms, x = mp ∨ x ∈ ancestorList mp) := by
  intro ms
  induction ms with
  | nil => simp
  | cons a t ih =>
    simp only [List.foldr_cons, List.mem_cons, List.mem_append, ih]
    constructor
    · rintro (hxa | h | ⟨mp, hmp, hx⟩)
      · exact ⟨a, Or.inl rfl, Or.inl hxa⟩
      · exact ⟨a, Or.inl rfl, Or.inr h⟩
      · exact ⟨mp, Or.inr hmp, hx⟩
    · rintro ⟨mp, hmp, hx⟩
      rcases hmp with rfl | hmp'
      · rcases hx with hx1 | hx2
        · exact Or.inl hx1
        · exact Or.inr (Or.inl hx2)
      · exact Or.inr (Or.inr ⟨mp, hmp', hx⟩)

/-- Claim C7 (amended): with a non-empty query, `shouldIncludeInSearch p` is
true iff `p` is directly in the inclusion set or some nonempty strict
ancestor of `p` carries a directory-match sentinel (and with a blank query
it is always true); the inclusion set contains exactly the direct matches
plus, for every match, ALL its ancestors up to the filesystem root `/` —
not stopping at the workspace root, so `/` itself is included. -/
theorem searchOverlay_spec (ign : List String → Bool) (fs : FileTree)
    (roots : List (List String)) (q : String) (hq : strIsBlank q = false) :
    (∀ p, shouldIncludeInSearch q (rebuildSearchPaths ign fs roots q) p = true ↔
      (p ∈ (rebuildSearchPaths ign fs roots q).included ∨
        ∃ c ∈ chainOf p.dropLast, c ≠ [] ∧
          c ∈ (rebuildSearchPaths ign fs roots q).dirMarks)) ∧
    (∀ x, x ∈ (rebuildSearchPaths ign fs roots q).included ↔
      ∃ mp ∈ searchMatches ign fs roots q, x = mp ∨ x ∈ ancestorList mp) ∧
    (∀ (q' : String) (ov : Overlay) (p : List String), strIsBlank q' = true →
      shouldIncludeInSearch q' ov p = true) := by
  refine ⟨?_, ?_, ?_⟩
  · intro p
    unfold shouldIncludeInSearch
    rw [hq]
    simp only [Bool.false_eq_true, if_false]
    by_cases hmem : p ∈ (rebuildSearchPaths ign fs roots q).included
    · simp [hmem]
    · simp only [hmem, if_false, ite_false, false_or]
      exact hasDirMatchAncestor_iff (rebuildSearchPaths ign fs roots q) p.dropLast
  · intro x
    unfold rebuildSearchPaths
    rw [if_neg (by simp [hq])]
    exact mem_included_foldr x (searchMatches ign fs roots q)
  · intro q' ov p hq'
    unfold shouldIncludeInSearch
    rw [hq']
    rfl

theorem isDirEmptyFuel_eq (ign : List String → Bool) :
    ∀ (n : Nat) (t : FileTree), sizeOf t ≤ n → ∀ (p : List String),
      isDirEmptyFuel ign n p t = isDirectoryEffectivelyEmpty ign p t := by
  intro n
  induction n with
  | zero =>
    intro t ht
    have := FileTree.one_le_sizeOf t
    omega
  | succ k ih =>
    intro t ht p
    cases t with
    | file nm => simp [isDirEmptyFuel, isDirectoryEffectivelyEmpty]
    | dir nm cs =>
      have hchild : ∀ c ∈ cs,
          isDirEmptyFuel ign k (p ++ [c.nodeName]) c =
            isDirectoryEffectivelyEmpty ign (p ++ [c.nodeName]) c := by
        intro c hc
        apply ih
        have h1 := List.sizeOf_lt_of_mem hc
        have h2 : sizeOf (FileTree.dir nm cs) = 1 + sizeOf nm + sizeOf cs := by simp
        omega
      have hba : ∀ (a b : Bool), (a = true ↔ b = true) → a = b := by decide
      have hall : (cs.all fun c =>
            ign (p ++ [c.nodeName]) || isDirEmptyFuel ign k (p ++ [c.nodeName]) c)
          = cs.attach.all (fun c =>
            ign (p ++ [c.1.nodeName]) ||
              isDirectoryEffectivelyEmpty ign (p ++ [c.1.nodeName]) c.1) := by
        apply hba
        rw [List.all_eq_true, List.all_eq_true]
        constructor
        · intro h c _
          have hc := c.2
          have := h c.1 hc
          rw [hchild c.1 hc] at this
          exact this
        · intro h c hc
          have := h ⟨c, hc⟩ (List.mem_attach _ _)
          rw [hchild c hc]
          exact this
      rw [isDirectoryEffectivelyEmpty]
      simp only [isDirEmptyFuel]
      rw [hall]

theorem findMatchesFuel_eq (ign : List String → Bool) (q : String) :
    ∀ (n : Nat) (cs : List FileTree), sizeOf cs ≤ n → ∀ (dp : List String),
      findMatchesFuel ign q n cs dp = findMatchesList ign q cs dp := by
  intro n
  induction n with
  | zero =>
    intro cs hcs
    cases cs <;> simp at hcs
  | succ k ih =>
    intro cs hcs dp
    cases cs with
    | nil => simp [findMatchesFuel, findMatchesList]
    | cons c rest =>
      have hszc : 1 ≤ sizeOf c := FileTree.one_le_sizeOf c
      have hszrest : sizeOf rest ≤ k := by simp at hcs; omega
      have hszc' : sizeOf c ≤ k := by
        simp at hcs
        have : 1 ≤ sizeOf rest := by cases rest <;> simp <;> omega
        omega
      rw [findMatchesList.eq_def]
      dsimp only
      simp only [findMatchesFuel]
      rw [ih rest hszrest dp]
      by_cases hign : ign (dp ++ [c.nodeName]) = true
      · simp [hign]
      · simp only [Bool.not_eq_true] at hign
        simp only [hign, Bool.false_eq_true, if_false, ite_false]
        congr 1
        congr 1
        cases c with
        | file nm => rfl
        | dir nm cs' =>
          have hszcs' : sizeOf cs' ≤ k := by
            have : sizeOf (FileTree.dir nm cs') = 1 + sizeOf nm + sizeOf cs' := by simp
            omega
          dsimp only
          rw [isDirEmptyFuel_eq ign k (.dir nm cs') hszc' (dp ++ [nm])]
          by_cases hemp : isDirectoryEffectivelyEmpty ign
              (dp ++ [nm]) (.dir nm cs') = true
          · simp [hemp]
          · simp only [Bool.not_eq_true] at hemp
            simp only [hemp, Bool.false_eq_true, if_false, ite_false]
            exact ih cs' hszcs' _

theorem ancestorList_nil : ancestorList [] = [] := by
  rw [ancestorList]
  simp

theorem ancestorList_cons (x : String) (xs : List String) :
    ancestorList (x :: xs) = (x :: xs).dropLast :: ancestorList (x :: xs).dropLast := by
  rw [ancestorList]
  simp

/-- The overlay the code builds for Scenario C's tree and query `"x"`: the
name `y.txt` also contains the substring `x` (in its extension), so BOTH
files match, and the ancestors of each match are added all the way up to
the filesystem root `[]`. -/
theorem rebuildSearchPaths_scenarioC :
    rebuildSearchPaths (fun _ => false) fsC [["p"]] "x" =
      ⟨[["p", "a", "x.txt"], ["p", "a"], ["p"], [],
        ["p", "b", "y.txt"], ["p", "b"], ["p"], []], []⟩ := by
  have hrd : readdirFS fsC ["p"] =
      some [.dir "a" [.file "x.txt"], .dir "b" [.file "y.txt"]] := rfl
  have hsz : sizeOf [FileTree.dir "a" [FileTree.file "x.txt"],
      FileTree.dir "b" [FileTree.file "y.txt"]] ≤ 10000 := by decide
  have hms : searchMatches (fun _ => false) fsC [["p"]] "x"
      = [["p", "a", "x.txt"], ["p", "b", "y.txt"]] := by
    unfold searchMatches
    rw [List.foldr_cons, List.foldr_nil, hrd]
    dsimp only
    rw [← findMatchesFuel_eq (fun _ => false) "x" 10000 _ hsz ["p"]]
    decide
  unfold rebuildSearchPaths
  rw [if_neg (by decide), hms]
  simp [ancestorList_nil, ancestorList_cons, List.dropLast, getNode, getChild, fsC,
    FileTree.nodeName]

/-- The overlay for the same tree and the query `"x."`, which matches only
`x.txt`. -/
theorem rebuildSearchPaths_scenarioC2 :
    rebuildSearchPaths (fun _ => false) fsC [["p"]] "x." =
      ⟨[["p", "a", "x.txt"], ["p", "a"], ["p"], []], []⟩ := by
  have hrd : readdirFS fsC ["p"] =
      some [.dir "a" [.file "x.txt"], .dir "b" [.file "y.txt"]] := rfl
  have hsz : sizeOf [FileTree.dir "a" [FileTree.file "x.txt"],
      FileTree.dir "b" [FileTree.file "y.txt"]] ≤ 10000 := by decide
  have hms : searchMatches (fun _ => false) fsC [["p"]] "x."
      = [["p", "a", "x.txt"]] := by
    unfold searchMatches
    rw [List.foldr_cons, List.foldr_nil, hrd]
    dsimp only
    rw [← findMatchesFuel_eq (fun _ => false) "x." 10000 _ hsz ["p"]]
    decide
  unfold rebuildSearchPaths
  rw [if_neg (by decide), hms]
  simp [ancestorList_nil, ancestorList_cons, List.dropLast, getNode, getChild, fsC,
    FileTree.nodeName]

/-- Claim C7 is false on the code at its own Scenario C: for the tree
`/p/a/x.txt`, `/p/b/y.txt` and query `"x"`, the built inclusion set is NOT
`{/p, /p/a, /p/a/x.txt}` — the filesystem root `/` (i.e. `[]`) is added
because match ancestors are collected past the workspace root, and
`/p/b/y.txt` is itself a direct match (the name `y.txt` contains the
substring `x` in its extension), so `/p/b` is included as well. -/
theorem searchOverlay_scenarioC_cex :
    ([] : List String) ∈ (rebuildSearchPaths (fun _ => false) fsC [["p"]] "x").included ∧
    (["p", "b", "y.txt"] : List String) ∈
      (rebuildSearchPaths (fun _ => false) fsC [["p"]] "x").included ∧
    ([] : List String) ∉ [["p"], ["p", "a"], ["p", "a", "x.txt"]] ∧
    (["p", "b", "y.txt"] : List String) ∉ [["p"], ["p", "a"], ["p", "a", "x.txt"]] := by
  rw [rebuildSearchPaths_scenarioC]
  refine ⟨by simp, by simp, by decide, by decide⟩

/-- Witness for `searchOverlay_spec` at the tree of Scenario C with the
query `"x."` (which matches only `x.txt`): the characterization instance
for `/p/b`, and the resulting exclusion of `/p/b` from the search. -/
theorem searchOverlay_spec_witness :
    (shouldIncludeInSearch "x." (rebuildSearchPaths (fun _ => false) fsC [["p"]] "x.")
        ["p", "b"] = true ↔
      (["p", "b"] ∈ (rebuildSearchPaths (fun _ => false) fsC [["p"]] "x.").included ∨
        ∃ c ∈ chainOf (["p", "b"] : List String).dropLast, c ≠ [] ∧
          c ∈ (rebuildSearchPaths (fun _ => false) fsC [["p"]] "x.").dirMarks)) ∧
    shouldIncludeInSearch "x." (rebuildSearchPaths (fun _ => false) fsC [["p"]] "x.")
      ["p", "b"] = false := by
  constructor
  · exact (searchOverlay_spec (fun _ => false) fsC [["p"]] "x." (by decide)).1 ["p", "b"]
  · have h := (searchOverlay_spec (fun _ => false) fsC [["p"]] "x." (by decide)).1 ["p", "b"]
    rw [rebuildSearchPaths_scenarioC2] at h ⊢
    rw [Bool.eq_false_iff]
    intro habs
    rcases h.mp habs with hmem | ⟨c, hc, hcnil, hcm⟩
    · simp at hmem
    · simp at hcm

/-- Claim C5: with a successful stat, the query returns the cached weight
iff the entry's recorded mtime AND size both equal the live stat (and then
the cache is unchanged); if either differs — mtime OR size mismatch — the
weight is recomputed from the file's content and a fresh entry recording
the live mtime and size replaces the old one (other keys untouched). -/
theorem countTokensWithCache_spec (stat : String → Option FileStats)
    (readFile : String → Option String) (tokenCount : String → Nat) (now : Nat)
    (cache : TokenCache) (p : String) (st : FileStats) (c : TokenCacheEntry)
    (hstat : stat p = some st) (hc : cache p = some c) :
    (c.mtime = st.mtimeMs ∧ c.size = st.size →
      countTokensWithCache stat readFile tokenCount now cache p = (c.count, cache)) ∧
    (c.mtime ≠ st.mtimeMs ∨ c.size ≠ st.size →
      (countTokensWithCache stat readFile tokenCount now cache p).1
          = countTokensInFile readFile tokenCount p ∧
      (countTokensWithCache stat readFile tokenCount now cache p).2 p
          = some ⟨countTokensInFile readFile tokenCount p, st.mtimeMs, st.size, now⟩ ∧
      (∀ q, q ≠ p → (countTokensWithCache stat readFile tokenCount now cache p).2 q
          = cache q)) := by
  unfold countTokensWithCache
  rw [hstat]
  dsimp only
  constructor
  · rintro ⟨h1, h2⟩
    have hvalid : isCacheValid cache p st = true := by
      unfold isCacheValid
      rw [hc]
      simp [h1, h2]
    rw [if_pos hvalid, hc]
  · intro hmis
    have hvalid : isCacheValid cache p st = false := by
      unfold isCacheValid
      rw [hc]
      rcases hmis with h | h <;> simp [h]
    rw [if_neg (by simp [hvalid])]
    refine ⟨rfl, by simp, fun q hq => by simp [hq]⟩

/-- Witness for `countTokensWithCache_spec` (Scenario D): the file's mtime
changed from 1 to 2 while its size stayed 5, so the weight is recomputed
from the content (`"hello world".length = 11`) and the entry is replaced. -/
theorem countTokensWithCache_spec_witness :
    (countTokensWithCache (fun _ => some ⟨2, 5⟩) (fun _ => some "hello world")
        String.length 7 cacheD "/p/f.txt").1 = 11 ∧
    (countTokensWithCache (fun _ => some ⟨2, 5⟩) (fun _ => some "hello world")
        String.length 7 cacheD "/p/f.txt").2 "/p/f.txt" = some ⟨11, 2, 5, 7⟩ := by
  have h := (countTokensWithCache_spec (fun _ => some ⟨2, 5⟩)
    (fun _ => some "hello world") String.length 7 cacheD "/p/f.txt" ⟨2, 5⟩ ⟨42, 1, 5, 0⟩
    rfl (by rfl)).2 (Or.inl (by decide))
  refine ⟨?_, ?_⟩
  · rw [h.1]
    rfl
  · rw [h.2.1]
    rfl

/-- Claim C6: loading a format-version-"1.0" cache document whose
producer/tool version differs from the current running version discards
the entire cache — no entry from the document is imported — and the first
subsequent weight query for any path recomputes from the file content. -/
theorem loadCacheFromDisk_version_mismatch (currentVersion : Option String)
    (existsFile : String → Bool) (d : DiskCacheDoc) (cache : TokenCache)
    (hver : d.version = "1.0")
    (hdoc : strTruthy d.extensionVersion = true)
    (hcur : strTruthy currentVersion = true)
    (hne : d.extensionVersion ≠ currentVersion) :
    (∀ p, loadCacheFromDisk currentVersion existsFile (some d) cache p = none) ∧
    (∀ (stat : String → Option FileStats) (readFile : String → Option String)
        (tokenCount : String → Nat) (now : Nat) (p : String) (st : FileStats),
      stat p = some st →
      (countTokensWithCache stat readFile tokenCount now
          (loadCacheFromDisk currentVersion existsFile (some d) cache) p).1
        = countTokensInFile readFile tokenCount p) := by
  have hload : loadCacheFromDisk currentVersion existsFile (some d) cache
      = fun _ => none := by
    unfold loadCacheFromDisk
    dsimp only
    rw [if_pos hver, if_pos]
    simp only [Bool.or_eq_true, Bool.not_eq_true']
    exact Or.inr (beq_eq_false_iff_ne.mpr hne)
  refine ⟨fun p => by rw [hload], ?_⟩
  intro stat readFile tokenCount now p st hstat
  rw [hload]
  unfold countTokensWithCache
  rw [hstat]
  dsimp only
  rw [if_neg (by unfold isCacheValid; simp)]

/-- Witness for `loadCacheFromDisk_version_mismatch` (Scenario E): loading
`docE` while running version `"1.1.0"` leaves no entry — even for the
existing file `/p/a.txt` recorded in the document — and the next query for
that path recomputes from the content (`"hi".length = 2`). -/
theorem loadCacheFromDisk_version_mismatch_witness :
    loadCacheFromDisk (some "1.1.0") (fun _ => true) (some docE) cacheD "/p/a.txt"
      = none ∧
    (countTokensWithCache (fun _ => some ⟨2, 5⟩) (fun _ => some "hi") String.length 7
        (loadCacheFromDisk (some "1.1.0") (fun _ => true) (some docE) cacheD)
        "/p/a.txt").1 = 2 := by
  have h := loadCacheFromDisk_version_mismatch (some "1.1.0") (fun _ => true) docE cacheD
    (by rfl) (by decide) (by decide) (by decide)
  refine ⟨h.1 "/p/a.txt", ?_⟩
  rw [h.2 (fun _ => some ⟨2, 5⟩) (fun _ => some "hi") String.length 7 "/p/a.txt" ⟨2, 5⟩ rfl]
  rfl
